import Mathlib

/-!
Shallow embedding of the core text-rendering and split-view code of the
goki/gi repository (text.go: SpanRender / TextRender, splitview.go:
SplitView), together with theorems checking the specification's claims
about that code.

Conventions of the embedding:
* Go float32 values are modelled as exact rationals (ℚ); overflow and
  rounding of float32 are outside the model.
* Go slices are modelled as Lean lists; an out-of-range Go index, which
  would panic at runtime, is modelled by total access (List.getD /
  getElem?) and every theorem carries hypotheses keeping all accesses
  in range, so the modelled runs coincide with panic-free Go runs.
* Go interface values that can be nil (font.Face, color.Color) are
  modelled as Option; a font face is modelled abstractly by its metric
  functions (glyph advance, kerning, line height, ascent), each already
  converted out of the fixed-point representation that the Go code
  converts with mat32.FromFixed.
* Mutating methods on a receiver are modelled as functions returning
  the updated receiver value.
-/

namespace Gi

/-- Planar vector, modelling mat32.Vec2 (float32 fields X, Y). -/
structure Vec2 where
  X : ℚ
  Y : ℚ
deriving DecidableEq

instance : Inhabited Vec2 := ⟨⟨0, 0⟩⟩

/-- Abstract model of a golang.org/x/image/font.Face: the metric queries
the rendering code uses.  Advance is GlyphAdvance, Kern is the kerning
pair adjustment, Height and Ascent come from Metrics(); all given
directly as rationals (the Go code converts the fixed-point values with
mat32.FromFixed). -/
structure Face where
  Height : ℚ
  Ascent : ℚ
  Advance : Char → ℚ
  Kern : Char → Char → ℚ

instance : Inhabited Face := ⟨⟨0, 0, fun _ => 0, fun _ _ => 0⟩⟩

/-- Colors are only ever stored, compared against nil, and copied by this
code, so a color.Color value is modelled as an opaque tag. -/
abbrev GColor := ℕ

/-- Model of gist.TextDirections (only LRTB is relevant to the code under study;
the remaining constants exist in textdirections_string.go). -/
inductive TextDirections where
  | LRTB | RLTB | TBRL | LR | RL | TB | LTR | RTL
deriving DecidableEq

instance : Inhabited TextDirections := ⟨.LRTB⟩

/-- Bit index of gist.DecoSuper in the text-decorations bitmask. -/
def DecoSuper : ℕ := 7

/-- Bit index of gist.DecoSub in the text-decorations bitmask. -/
def DecoSub : ℕ := 8

/-- RuneRender: fully explicit data needed for rendering a single rune.
Face and Color can be nil (None) after the first element, in which case
the last non-nil value is used. -/
structure RuneRender where
  Face : Option Gi.Face := none
  Color : Option GColor := none
  BgColor : Option GColor := none
  Deco : ℕ := 0
  RelPos : Vec2 := ⟨0, 0⟩
  Size : Vec2 := ⟨0, 0⟩
  RotRad : ℚ := 0
  ScaleX : ℚ := 0

instance : Inhabited RuneRender := ⟨{}⟩

/-- RelPosAfterLR returns the relative position after given rune for LR
order: RelPos.X + Size.X. -/
def RuneRender.RelPosAfterLR (rr : RuneRender) : ℚ :=
  rr.RelPos.X + rr.Size.X

/-- CurFace is convenience for updating current font face if non-nil. -/
def RuneRender.CurFace (rr : RuneRender) (curFace : Gi.Face) : Gi.Face :=
  match rr.Face with
  | some f => f
  | none => curFace

/-- SpanRender contains fully explicit data needed for rendering a span
of text as a slice of runes, with rune and RuneRender elements in
one-to-one correspondence. -/
structure SpanRender where
  Text : List Char := []
  Render : List RuneRender := []
  RelPos : Vec2 := ⟨0, 0⟩
  LastPos : Vec2 := ⟨0, 0⟩
  Dir : TextDirections := .LRTB
  HasDeco : ℕ := 0

instance : Inhabited SpanRender := ⟨{}⟩

/-- IsValid ensures that at least some text is represented, the sizes of
Text and Render slices are the same, and the first render info has
non-nil Face and Color (RuneRender.HasNil).  The Go method returns an
error; this model returns true exactly when that error is nil. -/
def SpanRender.IsValid (sr : SpanRender) : Bool :=
  if sr.Text.isEmpty then false
  else if sr.Text.length ≠ sr.Render.length then false
  else
    match sr.Render with
    | [] => false
    | rr :: _ => rr.Face.isSome && rr.Color.isSome

/-- The predicate unicode.IsSpace of the Go standard library: the Unicode
White_Space property (this is the full rune set for which Go's
unicode.IsSpace reports true). -/
def GoIsSpace (c : Char) : Bool :=
  let n := c.toNat
  (9 ≤ n && n ≤ 13) || n == 32 || n == 133 || n == 160 ||
    n == 0x1680 || (0x2000 ≤ n && n ≤ 0x200A) || n == 0x2028 ||
    n == 0x2029 || n == 0x202F || n == 0x205F || n == 0x3000

/-- Go conversion int(x) of a float value: truncation toward zero.  For
a rational p/q this is the truncated quotient of numerator by
denominator. -/
def GoTruncInt (q : ℚ) : ℤ :=
  q.num.tdiv q.den

/-- The effective advance width the rune positioner uses for rune r in
face f: the glyph advance, except that a zero advance is replaced by
0.1 times the face height ("something.." in the Go source). -/
def A32Of (f : Face) (r : Char) : ℚ :=
  if f.Advance r = 0 then (1 / 10) * f.Height else f.Advance r

/-- The pen position after applying the kerning adjustment between the
previous rune (None models the initial rune(-1)) and the current rune:
"if prevR >= 0 fpos += FromFixed(curFace.Kern(prevR, r))". -/
def PenAfterKern (fpos : ℚ) (cf : Face) (prevR : Option Char) (r : Char) : ℚ :=
  match prevR with
  | some p => fpos + cf.Kern p r
  | none => fpos

/-- The vertical offset of a rune: 0, raised by 0.45 of the ascent for
superscript, lowered by 0.15 of the ascent for subscript (the Go code
assigns super first, so a record with both bits ends subscripted). -/
def RunePosY (rr : RuneRender) (cf : Face) : ℚ :=
  if rr.Deco.testBit DecoSub then (15 / 100) * cf.Ascent
  else if rr.Deco.testBit DecoSuper then -((45 / 100) * cf.Ascent)
  else 0

/-- The pen position after a tab: advance to the next multiple of
tabSize columns, measured in the reference character width chsz
("col := int(Ceil(fpos/chsz)); curtab := col/tabSize; curtab++;
col = curtab * tabSize; cpos := chsz * float32(col)"), but never move
backwards. -/
def TabStopAdvance (chsz fpos1 : ℚ) (tabSize : ℤ) : ℚ :=
  let col := ⌈fpos1 / chsz⌉
  let curtab := Int.tdiv col tabSize + 1
  let cpos := chsz * ((curtab * tabSize : ℤ) : ℚ)
  if fpos1 < cpos then cpos else fpos1

/-- The pen position after emitting rune r at fpos1: the tab rule for
tabs, otherwise advance by the effective glyph width plus -- except
after the last rune (Go: i < sz-1) -- letter spacing and, for
whitespace runes, word spacing. -/
def PenAdvance (lspc wspc chsz : ℚ) (tabSize : ℤ) (r : Char) (last : Bool)
    (cf : Face) (fpos1 : ℚ) : ℚ :=
  if r = '\t' then TabStopAdvance chsz fpos1 tabSize
  else fpos1 + A32Of cf r +
    (if last then 0 else lspc + (if GoIsSpace r then wspc else 0))

/-- The body of the SetRunePosLR loop over (rune, render-record) pairs.
State threaded through the loop: current pen position fpos, previous
rune prevR (None models Go's rune(-1) initial value), and current face
curFace.  The Go condition i < sz-1 (current rune is not the last one)
appears here as rs.isEmpty = false.  Returns the updated render records
plus the final pen position (which becomes LastPos.X). -/
def RunePosLoopLR (lspc wspc chsz : ℚ) (tabSize : ℤ) :
    List Char → List RuneRender → ℚ → Option Char → Face →
    List RuneRender × ℚ
  | [], _, fpos, _, _ => ([], fpos)
  | _ :: _, [], fpos, _, _ => ([], fpos)
  | r :: rs, rr :: rrs, fpos, prevR, curFace =>
    let cf := rr.CurFace curFace
    let fpos1 := PenAfterKern fpos cf prevR r
    let rr2 := { rr with RelPos := ⟨fpos1, RunePosY rr cf⟩,
                         Size := ⟨A32Of cf r, cf.Height⟩ }
    let fpos2 := PenAdvance lspc wspc chsz tabSize r rs.isEmpty cf fpos1
    let rest := RunePosLoopLR lspc wspc chsz tabSize rs rrs fpos2 (some r) cf
    (rr2 :: rest.1, rest.2)

/-- The face the positioner starts from: sr.Render[0].Face (IsValid
guarantees it is non-nil whenever this is reached). -/
def SpanRender.Face0 (sr : SpanRender) : Face :=
  ((sr.Render.headD default).Face).getD default

/-- SetRunePosLR sets relative positions of each rune using a flat
left-to-right text layout, based on font size info and additional extra
letter and word spacing parameters (which can be negative).  On an
invalid span it returns with no change (the Go code logs nothing and
returns). -/
def SpanRender.SetRunePosLR (sr : SpanRender)
    (letterSpace wordSpace chsz : ℚ) (tabSize : ℤ) : SpanRender :=
  if sr.IsValid then
    let ts := if tabSize = 0 then 4 else tabSize
    let res := RunePosLoopLR letterSpace wordSpace chsz ts
      sr.Text sr.Render 0 none sr.Face0
    { sr with Dir := .LRTB, Render := res.1, LastPos := ⟨res.2, 0⟩ }
  else sr

end Gi

namespace Gi

/-! ### SplitView -/

/-- SplitView: the fields the split-geometry code reads and writes.
Kids is the number of child widgets (only the count is consulted);
Splits is the proportion (0-1 normalized) of space allocated to each
element. -/
structure SplitView where
  Kids : ℕ
  Splits : List ℚ := []
  SavedSplits : List ℚ := []

/-- UpdateSplits updates the splits to be same length as number of
children, and normalized. -/
def SplitView.UpdateSplits (g : SplitView) : SplitView :=
  let sz := g.Kids
  if sz = 0 then g
  else
    let splits := if g.Splits.length ≠ sz then List.replicate sz (0 : ℚ)
                  else g.Splits
    let sum := splits.sum
    if sum = 0 then
      { g with Splits := List.replicate sz ((1 : ℚ) / sz) }
    else
      { g with Splits := splits.map (fun x => x * (1 / sum)) }

/-- SetSplitsAction sets the new splitter value, for given splitter --
new value is 0..1 value of position of that splitter -- it is a sum of
all the positions up to that point.  Splitters are updated to ensure
that selected position is achieved, while dividing remainder
appropriately.  UpdateStart / SetFullReRender / UpdateEnd are UI
bookkeeping with no effect on Splits and are omitted.  A splitter index
at or beyond len(Splits) would panic in Go; the total list operations
here make the model total, and the theorems are read at in-range
indices. -/
def SplitView.SetSplitsAction (g : SplitView) (idx : ℕ) (nwval : ℚ) :
    SplitView :=
  let sz := g.Splits.length
  let oldsum := (g.Splits.take (idx + 1)).sum
  let delta := nwval - oldsum
  let oldval := g.Splits.getD idx 0
  let clamped := oldval + delta < 0
  let uval := if clamped then 0 else oldval + delta
  let nwval1 := if clamped then oldsum - oldval else nwval
  let rmdr := 1 - nwval1
  let splits1 :=
    if idx + 1 < sz then
      let oldrmdr := 1 - oldsum
      if oldrmdr ≤ 0 then
        if 0 < rmdr then
          let dper := rmdr / ((sz - 1 - idx : ℕ) : ℚ)
          (g.Splits.take (idx + 1)) ++ List.replicate (sz - (idx + 1)) dper
        else g.Splits
      else
        (g.Splits.take (idx + 1)) ++
          ((g.Splits.drop (idx + 1)).map (fun c => rmdr * (c / oldrmdr)))
    else g.Splits
  let splits2 := splits1.set idx uval
  SplitView.UpdateSplits { g with Splits := splits2 }

/-! ### Word wrap: FindWrapPosLR and its loops -/

/-- The first loop of the fit search in FindWrapPosLR, entered when the
width at the starting index already exceeds trgSize: decrement idx while
it is positive and the width f idx at idx still exceeds trgSize
(f idx is sr.RelPos.X + sr.Render[idx].RelPosAfterLR()). -/
def WrapFitDown (f : ℕ → ℚ) (trgSize : ℚ) : ℕ → ℕ
  | 0 => 0
  | i + 1 => if f (i + 1) ≤ trgSize then i + 1 else WrapFitDown f trgSize i

/-- The second loop of the fit search in FindWrapPosLR, entered when the
width at the starting index is within trgSize: increment idx while
idx < hi (hi is sz-1) and the width at idx+1 still fits. -/
def WrapFitUp (f : ℕ → ℚ) (trgSize : ℚ) (hi : ℕ) (i : ℕ) : ℕ :=
  if i < hi then
    (if trgSize < f (i + 1) then i else WrapFitUp f trgSize hi (i + 1))
  else i
termination_by hi - i

/-- Loop "for idx < sz && unicode.IsSpace(sr.Text[idx]) idx++"
(break at END of whitespace). -/
def SkipSpaceUp (txt : List Char) (sz i : ℕ) : ℕ :=
  if i < sz then
    (if GoIsSpace (txt.getD i default) then SkipSpaceUp txt sz (i + 1) else i)
  else i
termination_by sz - i

/-- Loop "for idx > 0 && !unicode.IsSpace(sr.Text[idx-1]) idx--"
(find earlier space). -/
def BackWhileNoSpace (txt : List Char) : ℕ → ℕ
  | 0 => 0
  | i + 1 =>
    if GoIsSpace (txt.getD i default) then i + 1 else BackWhileNoSpace txt i

/-- Loop "for idx < sz && !unicode.IsSpace(sr.Text[idx]) idx++"
(no spaces within size -- find next break going up). -/
def UpWhileNoSpace (txt : List Char) (sz i : ℕ) : ℕ :=
  if i < sz then
    (if GoIsSpace (txt.getD i default) then i else UpWhileNoSpace txt sz (i + 1))
  else i
termination_by sz - i

/-- The line width up to and including rune i, as FindWrapPosLR
measures it: sr.RelPos.X + sr.Render[i].RelPosAfterLR(). -/
def SpanRender.WrapWidthAt (sr : SpanRender) (i : ℕ) : ℚ :=
  sr.RelPos.X + (sr.Render.getD i default).RelPosAfterLR

/-- The starting index of the fit search:
idx := int(float32(sz)*(trgSize/curSize)), clamped to sz-1 from above.
A negative computed index (possible only for negative sizes, and making
Go panic on sr.Render[idx]) is clamped to 0 by toNat; the theorems
below restrict to positive sizes, where this model agrees with Go. -/
def SpanRender.WrapStartIdx (sr : SpanRender) (trgSize curSize : ℚ) : ℕ :=
  let sz := sr.Text.length
  let idx0 : ℤ := GoTruncInt ((sz : ℚ) * (trgSize / curSize))
  if (sz : ℤ) ≤ idx0 then sz - 1 else idx0.toNat

/-- The fit search of FindWrapPosLR: from the starting index, walk down
while the width up to idx exceeds trgSize, else walk up while the width
up to idx+1 still fits (stopping at sz-1). -/
def SpanRender.WrapFitIdx (sr : SpanRender) (trgSize curSize : ℚ) : ℕ :=
  let idx1 := sr.WrapStartIdx trgSize curSize
  if trgSize < sr.WrapWidthAt idx1 then
    WrapFitDown (sr.WrapWidthAt) trgSize idx1
  else
    WrapFitUp (sr.WrapWidthAt) trgSize (sr.Text.length - 1) idx1

/-- FindWrapPosLR finds a position to do word wrapping to fit within
trgSize -- RelPos positions must have already been set
(e.g. SetRunePosLR).  Returns -1 on an empty span, or when the first
whitespace at or above the fit index is the final rune (the Go comment
labels this return "unbreakable"). -/
def SpanRender.FindWrapPosLR (sr : SpanRender) (trgSize curSize : ℚ) : ℤ :=
  let sz := sr.Text.length
  if sz = 0 then -1
  else
    let idx2 := sr.WrapFitIdx trgSize curSize
    if GoIsSpace (sr.Text.getD idx2 default) then
      (SkipSpaceUp sr.Text sz (idx2 + 1) : ℤ)
    else
      let idx3 := BackWhileNoSpace sr.Text idx2
      if 0 < idx3 then (idx3 : ℤ)
      else
        let idx4 := UpWhileNoSpace sr.Text sz idx3
        if idx4 = sz - 1 then -1
        else (SkipSpaceUp sr.Text sz (idx4 + 1) : ℤ)

/-- A concrete positioned span with text "abc" (no whitespace), unit
advances: rune i sits at x = i with width 1. -/
def WrapCexSpan : SpanRender :=
  { Text := ['a', 'b', 'c']
    Render :=
      [{ Face := some default, Color := some 0, RelPos := ⟨0, 0⟩,
         Size := ⟨1, 2⟩ },
       { RelPos := ⟨1, 0⟩, Size := ⟨1, 2⟩ },
       { RelPos := ⟨2, 0⟩, Size := ⟨1, 2⟩ }]
    LastPos := ⟨3, 0⟩ }

/-- A simple concrete face for witnesses: every advance 1, no kerning,
height 2, ascent 1. -/
def UnitFace : Face :=
  { Height := 2, Ascent := 1, Advance := fun _ => 1, Kern := fun _ _ => 0 }

/-- A concrete valid two-rune span "ab" rendered in UnitFace. -/
def MonoWitSpan : SpanRender :=
  { Text := ['a', 'b']
    Render := [{ Face := some UnitFace, Color := some 0 }, {}] }

/-- The tab scenario span: text "a\tb" with a valid first record in
face f. -/
def TabSpan (f : Face) (c : GColor) : SpanRender :=
  { Text := ['a', '\t', 'b']
    Render := [{ Face := some f, Color := some c }, {}, {}] }

/-! ### SplitAtLR and LastFont -/

/-- The backward scan of SpanRender.LastFont over the reversed render
records, tracking the last non-nil face and color seen and stopping as
soon as both are found. -/
def LastFontScan : List RuneRender → Option Face → Option GColor →
    Option Face × Option GColor
  | [], face, color => (face, color)
  | rr :: rest, face, color =>
    let face1 := match face, rr.Face with
      | none, some f => some f
      | _, _ => face
    let color1 := match color, rr.Color with
      | none, some c => some c
      | _, _ => color
    if face1.isSome ∧ color1.isSome then (face1, color1)
    else LastFontScan rest face1 color1

/-- LastFont finds the last font and color from given span (iterating
the render records from the end). -/
def SpanRender.LastFont (sr : SpanRender) : Option Face × Option GColor :=
  LastFontScan sr.Render.reverse none none

/-- SplitAt splits current span at given index, returning a new span
with remainder after index.  The Go method mutates the receiver (the
head) and returns a pointer to the tail, or nil when the index is out
of range; here the pair (updated receiver, optional tail) is returned.
The tail's first record is back-filled with the last resolved face and
color of the head when nil. -/
def SpanRender.SplitAtLR (sr : SpanRender) (idx : ℤ) :
    SpanRender × Option SpanRender :=
  if idx ≤ 0 ∨ (sr.Text.length : ℤ) - 1 ≤ idx then (sr, none)
  else
    let k := idx.toNat
    let head : SpanRender :=
      { sr with
        Text := sr.Text.take k
        Render := sr.Render.take k
        LastPos := ⟨(sr.Render.getD (k - 1) default).RelPosAfterLR,
          sr.LastPos.Y⟩ }
    let nsr0 : SpanRender :=
      { Text := sr.Text.drop k
        Render := sr.Render.drop k
        Dir := sr.Dir
        HasDeco := sr.HasDeco }
    let nsr : SpanRender :=
      match nsr0.Render with
      | [] => nsr0
      | rr0 :: rest =>
        let lf := head.LastFont
        let rr1 := { rr0 with
          Face := match rr0.Face with
            | none => lf.1
            | some f => some f
          Color := match rr0.Color with
            | none => lf.2
            | some c => some c }
        { nsr0 with Render := rr1 :: rest }
    (head, some nsr)

/-! ### TextRender: absolute rune index vs (span, rune) position -/

/-- TextRender: the span list (the remaining fields of the Go struct --
overall size, links, character -- play no role in the index maps studied
here). -/
structure TextRender where
  Spans : List SpanRender := []

/-- The span-scanning loop of RuneSpanPos: ri is the running rune index
(an int in Go, clamped to 0 at each step if negative); when ri falls
inside the current span, the result is that span (relative index here,
made absolute by the map (+1)) together with the in-span rune index;
None models falling off the end of the span list. -/
def RuneSpanPosScan : List SpanRender → ℤ → Option (ℕ × ℤ)
  | [], _ => none
  | sp :: rest, ri =>
    let ri1 := if ri < 0 then 0 else ri
    if (sp.Render.length : ℤ) ≤ ri1 then
      (RuneSpanPosScan rest (ri1 - sp.Render.length)).map
        (fun p => (p.1 + 1, p.2))
    else some (0, ri1)

/-- RuneSpanPos returns the position (span index, rune index within
span) within a sequence of spans of a given absolute rune index --
returns false if index is out of range (and returns the last
position). -/
def TextRender.RuneSpanPos (tx : TextRender) (idx : ℤ) : ℕ × ℤ × Bool :=
  if idx < 0 ∨ tx.Spans.length = 0 then (0, 0, false)
  else
    match RuneSpanPosScan tx.Spans idx with
    | some (si, ri) => (si, ri, true)
    | none =>
      (tx.Spans.length - 1,
        ((tx.Spans.getLastD default).Render.length : ℤ) - 1, false)

/-- The span-scanning loop of SpanPosToRuneIdx: si counts down to the
target span (Go compares the absolute target against the loop counter),
idx accumulates the render lengths of the spans passed over. -/
def SpanPosToRuneIdxScan : List SpanRender → ℤ → ℤ → ℤ → ℤ × Bool
  | [], _, _, _ => (0, false)
  | sp :: rest, si, ri, idx =>
    if 0 < si then
      SpanPosToRuneIdxScan rest (si - 1) ri (idx + sp.Render.length)
    else if ri < (sp.Render.length : ℤ) then (idx + ri, true)
    else (idx + sp.Render.length - 1, false)

/-- SpanPosToRuneIdx returns the absolute rune index for a given span,
rune index position -- i.e., the inverse of RuneSpanPos.  Returns false
if given input position is out of range, and returns last valid index
in that case. -/
def TextRender.SpanPosToRuneIdx (tx : TextRender) (si : ℤ) (ri : ℤ) :
    ℤ × Bool :=
  SpanPosToRuneIdxScan tx.Spans si ri 0

/-! ### Faces used by the rune positioner -/

/-- The sequence of faces the SetRunePosLR loop actually uses at each
rune (after the CurFace run-length resolution), starting from face cf. -/
def UsedFaces : List RuneRender → Face → List Face
  | [], _ => []
  | rr :: rest, cf => rr.CurFace cf :: UsedFaces rest (rr.CurFace cf)

/-- Hypothesis under which rune positions cannot regress: for any two
faces the positioner can consult at consecutive runes, the effective
advance of the first rune plus the (possibly negative) kerning applied
before the next rune is nonnegative -- the spec's "kerning may be
negative but cumulative advance must not regress past the previous
glyph's start". -/
def KernBounded (rrs : List RuneRender) (cf : Face) : Prop :=
  ∀ f ∈ UsedFaces rrs cf, ∀ g ∈ UsedFaces rrs cf, ∀ p q : Char,
    0 ≤ A32Of f p + g.Kern p q

/-- The cumulative splitter value SetSplitsAction actually realizes:
nwval, unless moving splitter idx there would make its region negative,
in which case the region is clamped to zero and the realized value is
the cumulative sum up to (but excluding) region idx. -/
def SplitView.ClampedNwval (g : SplitView) (idx : ℕ) (nwval : ℚ) : ℚ :=
  let oldsum := (g.Splits.take (idx + 1)).sum
  let oldval := g.Splits.getD idx 0
  if oldval + (nwval - oldsum) < 0 then oldsum - oldval else nwval

/-! ### Helper lemmas about list sums -/

theorem sum_map_mul_right (l : List ℚ) (c : ℚ) :
    (l.map (fun x => x * c)).sum = l.sum * c := by
  induction l with
  | nil => simp
  | cons a l ih => simp [ih, add_mul]

theorem sum_map_mulDiv (l : List ℚ) (a b : ℚ) :
    (l.map (fun x => a * (x / b))).sum = a * (l.sum / b) := by
  induction l with
  | nil => simp
  | cons x l ih => simp [ih, add_div, mul_add]

theorem sum_set_list (l : List ℚ) (i : ℕ) (v : ℚ) (h : i < l.length) :
    (l.set i v).sum = l.sum - l.getD i 0 + v := by
  induction l generalizing i with
  | nil => simp at h
  | cons a l ih =>
    cases i with
    | zero => simp [List.set]; ring
    | succ j =>
      simp only [List.set, List.sum_cons, List.getD_cons_succ]
      rw [ih j (by simpa using h)]
      ring

theorem sum_take_drop (l : List ℚ) (n : ℕ) :
    (l.take n).sum + (l.drop n).sum = l.sum := by
  rw [← List.sum_append, List.take_append_drop]

/-! ### C2 / C9: split proportions sum to one, degenerate handling -/

theorem updateSplits_sum_one (g : SplitView) (hk : 1 ≤ g.Kids) :
    (g.UpdateSplits).Splits.sum = 1 := by
  have hk0 : g.Kids ≠ 0 := by omega
  have hkQ : ((g.Kids : ℚ)) ≠ 0 := by exact_mod_cast hk0
  unfold SplitView.UpdateSplits
  simp only [hk0, if_false]
  set splits := if g.Splits.length ≠ g.Kids then List.replicate g.Kids (0 : ℚ)
    else g.Splits with hsp
  by_cases hz : splits.sum = 0
  · simp only [hz, if_true]
    rw [List.sum_replicate, nsmul_eq_mul, mul_one_div, div_self hkQ]
  · simp only [hz, if_false]
    rw [sum_map_mul_right, mul_one_div, div_self hz]

theorem updateSplits_length (g : SplitView) (hk : 1 ≤ g.Kids) :
    (g.UpdateSplits).Splits.length = g.Kids := by
  have hk0 : g.Kids ≠ 0 := by omega
  unfold SplitView.UpdateSplits
  simp only [hk0, if_false]
  by_cases hl : g.Splits.length ≠ g.Kids <;>
    by_cases hz : (if g.Splits.length ≠ g.Kids then List.replicate g.Kids (0:ℚ)
      else g.Splits).sum = 0 <;>
    simp_all

/-- C2: for a SplitView with at least one child, the proportions sum to
exactly 1 after UpdateSplits (hence after any external mutation of
Splits followed by UpdateSplits), and after every SetSplitsAction call
(which ends with UpdateSplits); in the exact-rational model the
floating-point epsilon is not needed. -/
theorem c2_splits_sum_one (g : SplitView) (idx : ℕ) (nwval : ℚ)
    (hk : 1 ≤ g.Kids) :
    (g.UpdateSplits).Splits.sum = 1 ∧
      (g.SetSplitsAction idx nwval).Splits.sum = 1 := by
  constructor
  · exact updateSplits_sum_one g hk
  · unfold SplitView.SetSplitsAction
    exact updateSplits_sum_one _ hk

/-- Witness for c2_splits_sum_one at a concrete SplitView. -/
theorem c2_splits_sum_one_witness :
    1 ≤ (SplitView.mk 2 [1/2, 1/2] []).Kids ∧
      ((SplitView.mk 2 [1/2, 1/2] []).UpdateSplits).Splits.sum = 1 ∧
      ((SplitView.mk 2 [1/2, 1/2] []).SetSplitsAction 0 (3/4)).Splits.sum = 1 :=
  ⟨by decide, c2_splits_sum_one (SplitView.mk 2 [1/2, 1/2] []) 0 (3/4) (by decide)⟩

/-- C9: UpdateSplits never fails on degenerate input: with at least one
child and a Splits slice of matching length, a zero sum produces the
even split 1/N everywhere, and a nonzero sum rescales every proportion
by 1/sum. -/
theorem c9_updateSplits_degenerate (g : SplitView) (hk : 1 ≤ g.Kids)
    (hlen : g.Splits.length = g.Kids) :
    (g.Splits.sum = 0 →
      (g.UpdateSplits).Splits = List.replicate g.Kids ((1 : ℚ) / g.Kids)) ∧
    (g.Splits.sum ≠ 0 →
      (g.UpdateSplits).Splits = g.Splits.map (fun x => x * (1 / g.Splits.sum))) := by
  have hk0 : g.Kids ≠ 0 := by omega
  unfold SplitView.UpdateSplits
  constructor
  · intro hz
    simp [hk0, hlen, hz]
  · intro hz
    simp [hk0, hlen, hz]

/-! ### C3: redistribution of the remainder in SetSplitsAction -/

theorem getElem?_eq_some_getD (l : List ℚ) (i : ℕ) (h : i < l.length) :
    l[i]? = some (l.getD i 0) := by
  rw [List.getD_eq_getElem?_getD, List.getElem?_eq_getElem h]
  rfl

theorem updateSplits_mk_of_sum_one (kids : ℕ) (sp saved : List ℚ)
    (hk : kids ≠ 0) (hlen : sp.length = kids) (hsum : sp.sum = 1) :
    (SplitView.UpdateSplits (SplitView.mk kids sp saved)).Splits = sp := by
  unfold SplitView.UpdateSplits
  simp [hk, hlen, hsum]

theorem prop_list_length (s : List ℚ) (k : ℕ) (f : ℚ → ℚ) (idx : ℕ) (u : ℚ)
    (hk : k ≤ s.length) :
    ((s.take k ++ (s.drop k).map f).set idx u).length = s.length := by
  rw [List.length_set, List.length_append, List.length_take,
    List.length_map, List.length_drop]
  omega

theorem take_append_getD (s : List ℚ) (k idx : ℕ) (l2 : List ℚ)
    (hik : idx < k) (hk : k ≤ s.length) :
    (s.take k ++ l2).getD idx 0 = s.getD idx 0 := by
  have hlt : (s.take k).length = k := by rw [List.length_take]; omega
  rw [List.getD_eq_getElem?_getD, List.getElem?_append, hlt, if_pos hik,
    List.getElem?_take, if_pos hik, List.getD_eq_getElem?_getD]

theorem prop_list_sum (s : List ℚ) (k idx : ℕ) (u rm orm : ℚ)
    (hik : idx < k) (hk : k ≤ s.length) :
    ((s.take k ++ (s.drop k).map (fun c => rm * (c / orm))).set idx u).sum =
      (s.take k).sum - s.getD idx 0 + u + rm * ((s.drop k).sum / orm) := by
  have hlt : (s.take k).length = k := by rw [List.length_take]; omega
  have hin : idx <
      (s.take k ++ (s.drop k).map (fun c => rm * (c / orm))).length := by
    rw [List.length_append, hlt]; omega
  rw [sum_set_list _ idx u hin, List.sum_append, sum_map_mulDiv,
    take_append_getD s k idx _ hik hk]
  ring

theorem prop_list_getD (s : List ℚ) (k idx i : ℕ) (u rm orm : ℚ)
    (hki : k ≤ i) (hi : i < s.length) (hidxi : idx < i) :
    ((s.take k ++ (s.drop k).map (fun c => rm * (c / orm))).set idx u).getD i 0 =
      rm * (s.getD i 0 / orm) := by
  have hlt : (s.take k).length = k := by rw [List.length_take]; omega
  rw [List.getD_eq_getElem?_getD, List.getElem?_set_ne (by omega),
    List.getElem?_append_right (by rw [hlt]; omega), hlt,
    List.getElem?_map, List.getElem?_drop, (by omega : k + (i - k) = i),
    getElem?_eq_some_getD s i hi]
  rfl

theorem even_list_length (s : List ℚ) (k : ℕ) (d : ℚ) (idx : ℕ) (u : ℚ)
    (hk : k ≤ s.length) :
    ((s.take k ++ List.replicate (s.length - k) d).set idx u).length =
      s.length := by
  rw [List.length_set, List.length_append, List.length_take,
    List.length_replicate]
  omega

theorem even_list_sum (s : List ℚ) (k idx : ℕ) (u d : ℚ)
    (hik : idx < k) (hk : k ≤ s.length) :
    ((s.take k ++ List.replicate (s.length - k) d).set idx u).sum =
      (s.take k).sum - s.getD idx 0 + u + ((s.length - k : ℕ) : ℚ) * d := by
  have hlt : (s.take k).length = k := by rw [List.length_take]; omega
  have hin : idx < (s.take k ++ List.replicate (s.length - k) d).length := by
    rw [List.length_append, hlt]; omega
  rw [sum_set_list _ idx u hin, List.sum_append, List.sum_replicate,
    nsmul_eq_mul, take_append_getD s k idx _ hik hk]
  ring

theorem even_list_getD (s : List ℚ) (k idx i : ℕ) (u d : ℚ)
    (hki : k ≤ i) (hi : i < s.length) (hidxi : idx < i) :
    ((s.take k ++ List.replicate (s.length - k) d).set idx u).getD i 0 = d := by
  have hlt : (s.take k).length = k := by rw [List.length_take]; omega
  rw [List.getD_eq_getElem?_getD, List.getElem?_set_ne (by omega),
    List.getElem?_append_right (by rw [hlt]; omega), hlt,
    List.getElem?_replicate, if_pos (by omega : i - k < s.length - k)]
  rfl

/-- C3: in SetSplitsAction with idx < N-1 on a normalized SplitView
(splits of length N summing to 1): if the old remainder
1 - sum(Splits[0..idx]) is positive, every region i > idx ends with
proportion (1 - nwval_clamped) * oldSplits[i] / oldRemainder (so the
relative ratios among the untouched regions are preserved); if the old
remainder is ≤ 0 while the new remainder is positive, the new remainder
is distributed evenly among regions idx+1 .. N-1. -/
theorem c3_setSplitsAction_redistribution (g : SplitView) (idx : ℕ)
    (nwval : ℚ) (hlen : g.Splits.length = g.Kids)
    (hsum : g.Splits.sum = 1) (hidx : idx + 1 < g.Splits.length) :
    (0 < 1 - (g.Splits.take (idx + 1)).sum →
      ∀ i, idx < i → i < g.Splits.length →
        (g.SetSplitsAction idx nwval).Splits.getD i 0 =
          (1 - g.ClampedNwval idx nwval) * (g.Splits.getD i 0) /
            (1 - (g.Splits.take (idx + 1)).sum)) ∧
    (1 - (g.Splits.take (idx + 1)).sum ≤ 0 →
      0 < 1 - g.ClampedNwval idx nwval →
      ∀ i, idx < i → i < g.Splits.length →
        (g.SetSplitsAction idx nwval).Splits.getD i 0 =
          (1 - g.ClampedNwval idx nwval) /
            ((g.Splits.length - 1 - idx : ℕ) : ℚ)) := by
  classical
  have hkn : idx + 1 ≤ g.Splits.length := le_of_lt hidx
  have hik : idx < idx + 1 := Nat.lt_succ_self idx
  have hin : idx < g.Splits.length := by omega
  have hkids : g.Kids ≠ 0 := by omega
  have hbal :
      (g.Splits.take (idx + 1)).sum - g.Splits.getD idx 0 +
        (if g.Splits.getD idx 0 + (nwval - (g.Splits.take (idx + 1)).sum) < 0
          then 0
          else g.Splits.getD idx 0 + (nwval - (g.Splits.take (idx + 1)).sum))
        = g.ClampedNwval idx nwval := by
    rw [SplitView.ClampedNwval]
    by_cases hc :
        g.Splits.getD idx 0 + (nwval - (g.Splits.take (idx + 1)).sum) < 0
    · rw [if_pos hc, if_pos hc]; ring
    · rw [if_neg hc, if_neg hc]; ring
  have hclamp :
      (1 : ℚ) - (if g.Splits.getD idx 0 +
            (nwval - (g.Splits.take (idx + 1)).sum) < 0
          then (g.Splits.take (idx + 1)).sum - g.Splits.getD idx 0
          else nwval) = 1 - g.ClampedNwval idx nwval := by
    rw [SplitView.ClampedNwval]
  have hdropsum : (g.Splits.drop (idx + 1)).sum =
      1 - (g.Splits.take (idx + 1)).sum := by
    have := sum_take_drop g.Splits (idx + 1)
    rw [hsum] at this; linarith
  constructor
  · -- proportional branch: old remainder positive
    intro hpos i hi1 hi2
    have hne : (1 : ℚ) - (g.Splits.take (idx + 1)).sum ≠ 0 := ne_of_gt hpos
    unfold SplitView.SetSplitsAction
    simp only [if_pos hidx, if_neg (not_le.mpr hpos)]
    set u := (if g.Splits.getD idx 0 +
        (nwval - (g.Splits.take (idx + 1)).sum) < 0 then (0 : ℚ)
      else g.Splits.getD idx 0 + (nwval - (g.Splits.take (idx + 1)).sum))
      with hu
    set w := (if g.Splits.getD idx 0 +
        (nwval - (g.Splits.take (idx + 1)).sum) < 0
      then (g.Splits.take (idx + 1)).sum - g.Splits.getD idx 0
      else nwval) with hw
    set X := (g.Splits.take (idx + 1) ++
        (g.Splits.drop (idx + 1)).map
          (fun c => (1 - w) * (c / (1 - (g.Splits.take (idx + 1)).sum)))).set
        idx u with hX
    have hL : X.length = g.Kids := by
      rw [hX, prop_list_length _ _ _ _ _ hkn]; exact hlen
    have hS : X.sum = 1 := by
      rw [hX, prop_list_sum _ _ _ _ _ _ hik hkn, hdropsum, div_self hne,
        mul_one]
      linarith [hbal, hclamp]
    rw [updateSplits_mk_of_sum_one g.Kids X g.SavedSplits hkids hL hS, hX,
      prop_list_getD _ _ _ _ _ _ _ (by omega) hi2 hi1,
      ← mul_div_assoc, hclamp]
  · -- even branch: old remainder ≤ 0, new remainder positive
    intro hneg hposr i hi1 hi2
    have hposr2 : (0 : ℚ) <
        1 - (if g.Splits.getD idx 0 +
            (nwval - (g.Splits.take (idx + 1)).sum) < 0
          then (g.Splits.take (idx + 1)).sum - g.Splits.getD idx 0
          else nwval) := by
      rw [hclamp]; exact hposr
    have hsub : g.Splits.length - 1 - idx = g.Splits.length - (idx + 1) := by
      omega
    have hnkQ : ((g.Splits.length - (idx + 1) : ℕ) : ℚ) ≠ 0 := by
      have h0 : (0 : ℕ) < g.Splits.length - (idx + 1) := by omega
      exact_mod_cast h0.ne'
    unfold SplitView.SetSplitsAction
    simp only [if_pos hidx, if_pos hneg, if_pos hposr2]
    rw [hsub]
    set w := (if g.Splits.getD idx 0 +
        (nwval - (g.Splits.take (idx + 1)).sum) < 0
      then (g.Splits.take (idx + 1)).sum - g.Splits.getD idx 0
      else nwval) with hw
    set u := (if g.Splits.getD idx 0 +
        (nwval - (g.Splits.take (idx + 1)).sum) < 0 then (0 : ℚ)
      else g.Splits.getD idx 0 + (nwval - (g.Splits.take (idx + 1)).sum))
      with hu
    set X := (g.Splits.take (idx + 1) ++
        List.replicate (g.Splits.length - (idx + 1))
          ((1 - w) / ((g.Splits.length - (idx + 1) : ℕ) : ℚ))).set idx u
      with hX
    have hL : X.length = g.Kids := by
      rw [hX, even_list_length _ _ _ _ _ hkn]; exact hlen
    have hS : X.sum = 1 := by
      rw [hX, even_list_sum _ _ _ _ _ hik hkn, mul_div_cancel₀ _ hnkQ]
      linarith [hbal, hclamp]
    rw [updateSplits_mk_of_sum_one g.Kids X g.SavedSplits hkids hL hS, hX,
      even_list_getD _ _ _ _ _ _ (by omega) hi2 hi1, hclamp]

/-- Witness for c3_setSplitsAction_redistribution: dragging handle 0 of
a 2-region [1/2, 1/2] split to 3/4 leaves region 1 with
(1 - 3/4) * (1/2) / (1/2). -/
theorem c3_setSplitsAction_redistribution_witness :
    ((SplitView.mk 2 [1/2, 1/2] []).SetSplitsAction 0 (3/4)).Splits.getD 1 0 =
      (1 - (SplitView.mk 2 [1/2, 1/2] []).ClampedNwval 0 (3/4)) *
        ((SplitView.mk 2 [1/2, 1/2] []).Splits.getD 1 0) /
        (1 - ((SplitView.mk 2 [1/2, 1/2] []).Splits.take 1).sum) :=
  (c3_setSplitsAction_redistribution (SplitView.mk 2 [1/2, 1/2] []) 0 (3/4)
      (by decide) (by with_unfolding_all rfl) (by decide)).1
    (by norm_num [List.take_succ_cons, List.take_zero, List.sum_cons,
      List.sum_nil])
    1 (by decide) (by decide)

/-! ### C10 / C5: SplitAtLR -/

/-- C10: SplitAtLR with an out-of-range index (idx ≤ 0 or
idx ≥ len(Text)-1) returns nil for the tail and leaves the receiver
span completely unchanged. -/
theorem c10_splitAtLR_out_of_range (sr : SpanRender) (idx : ℤ)
    (h : idx ≤ 0 ∨ (sr.Text.length : ℤ) - 1 ≤ idx) :
    sr.SplitAtLR idx = (sr, none) := by
  unfold SpanRender.SplitAtLR
  rw [if_pos h]

/-- Witness for c10_splitAtLR_out_of_range at both ends of the range,
on a three-rune span. -/
theorem c10_splitAtLR_out_of_range_witness :
    ({ Text := ['a', 'b', 'c'] } : SpanRender).SplitAtLR 0 =
        (({ Text := ['a', 'b', 'c'] } : SpanRender), none) ∧
      ({ Text := ['a', 'b', 'c'] } : SpanRender).SplitAtLR 5 =
        (({ Text := ['a', 'b', 'c'] } : SpanRender), none) :=
  ⟨c10_splitAtLR_out_of_range _ 0 (Or.inl (by decide)),
    c10_splitAtLR_out_of_range _ 5 (Or.inr (by decide))⟩

/-- C5: for an in-range split index 0 < k < len(Text)-1, SplitAtLR
yields a head and a tail whose texts are exactly original[0..k) and
original[k..end), so their concatenation reproduces the original text;
the render records are partitioned likewise (head keeps the first k,
and head and tail lengths add up to the original). -/
theorem c5_splitAtLR_roundtrip (sr : SpanRender) (k : ℕ)
    (h1 : 0 < k) (h2 : k + 1 < sr.Text.length) :
    ∃ head tail, sr.SplitAtLR (k : ℤ) = (head, some tail) ∧
      head.Text = sr.Text.take k ∧ tail.Text = sr.Text.drop k ∧
      head.Text ++ tail.Text = sr.Text ∧
      head.Render = sr.Render.take k ∧
      head.Render.length + tail.Render.length = sr.Render.length := by
  have hcond : ¬((k : ℤ) ≤ 0 ∨ (sr.Text.length : ℤ) - 1 ≤ (k : ℤ)) := by
    omega
  have hlensum : (sr.Render.take k).length + (sr.Render.drop k).length =
      sr.Render.length := by
    rw [List.length_take, List.length_drop]; omega
  simp only [SpanRender.SplitAtLR, if_neg hcond, Int.toNat_natCast]
  cases hdrop : sr.Render.drop k with
  | nil =>
    refine ⟨_, _, rfl, rfl, rfl, List.take_append_drop k sr.Text, rfl, ?_⟩
    rw [← hlensum, hdrop]
  | cons rr0 rest =>
    refine ⟨_, _, rfl, rfl, rfl, List.take_append_drop k sr.Text, rfl, ?_⟩
    rw [← hlensum, hdrop]
    simp

/-- Witness for c5_splitAtLR_roundtrip: a three-rune span split at
index 1. -/
theorem c5_splitAtLR_roundtrip_witness :
    ∃ head tail,
      ({ Text := ['a', 'b', 'c'],
         Render := [{ Face := some default, Color := some 0 }, {}, {}] } :
          SpanRender).SplitAtLR (1 : ℕ) = (head, some tail) ∧
      head.Text = (['a', 'b', 'c'] : List Char).take 1 ∧
      tail.Text = (['a', 'b', 'c'] : List Char).drop 1 ∧
      head.Text ++ tail.Text = ['a', 'b', 'c'] ∧
      head.Render = ([{ Face := some default, Color := some 0 }, {}, {}] :
        List RuneRender).take 1 ∧
      head.Render.length + tail.Render.length =
        ([{ Face := some default, Color := some 0 }, {}, {}] :
          List RuneRender).length :=
  c5_splitAtLR_roundtrip _ 1 (by decide) (by decide)

/-! ### C7: SetRunePosLR is a silent no-op on malformed spans -/

/-- C7: on every malformed span (empty text, mismatched Text/Render
lengths, or nil Face/Color in the first record) SetRunePosLR returns
the span entirely unchanged: a silent no-op with no error. -/
theorem c7_setRunePos_noop_on_invalid (sr : SpanRender)
    (lspc wspc chsz : ℚ) (tabSize : ℤ)
    (h : sr.Text = [] ∨ sr.Text.length ≠ sr.Render.length ∨
      (sr.Render.headD default).Face = none ∨
      (sr.Render.headD default).Color = none) :
    sr.SetRunePosLR lspc wspc chsz tabSize = sr := by
  have hv : sr.IsValid = false := by
    by_cases he : sr.Text.isEmpty
    · simp [SpanRender.IsValid, he]
    · by_cases hl : sr.Text.length ≠ sr.Render.length
      · simp [SpanRender.IsValid, he, hl]
      · push_neg at hl
        obtain ⟨rr, rest, hR⟩ : ∃ rr rest, sr.Render = rr :: rest := by
          cases hr : sr.Render with
          | nil =>
            exfalso
            apply he
            rw [List.isEmpty_iff, ← List.length_eq_zero]
            rw [hl, hr]
            rfl
          | cons a l => exact ⟨a, l, rfl⟩
        rcases h with h | h | h | h
        · exact absurd (by rw [h]; rfl) he
        · exact absurd hl (by exact h)
        · rw [hR] at h
          simp only [List.headD_cons] at h
          simp [SpanRender.IsValid, he, hl, hR, h]
        · rw [hR] at h
          simp only [List.headD_cons] at h
          simp [SpanRender.IsValid, he, hl, hR, h]
  simp [SpanRender.SetRunePosLR, hv]

/-- Witness for c7_setRunePos_noop_on_invalid: a span with one rune of
text but no render records is returned unchanged. -/
theorem c7_setRunePos_noop_on_invalid_witness :
    ({ Text := ['a'] } : SpanRender).Text.length ≠
        ({ Text := ['a'] } : SpanRender).Render.length ∧
      ({ Text := ['a'] } : SpanRender).SetRunePosLR 0 0 1 4 =
        ({ Text := ['a'] } : SpanRender) :=
  ⟨by decide,
    c7_setRunePos_noop_on_invalid _ 0 0 1 4 (Or.inr (Or.inl (by decide)))⟩

/-! ### C8: RuneSpanPos and SpanPosToRuneIdx are mutually inverse -/

theorem runeSpanPosScan_inverse (spans : List SpanRender) (ri0 : ℤ)
    (si : ℕ) (ri : ℤ) (acc : ℤ) (h0 : 0 ≤ ri0)
    (h : RuneSpanPosScan spans ri0 = some (si, ri)) :
    SpanPosToRuneIdxScan spans (si : ℤ) ri acc = (acc + ri0, true) := by
  induction spans generalizing ri0 si acc with
  | nil => simp [RuneSpanPosScan] at h
  | cons sp rest ih =>
    rw [RuneSpanPosScan] at h
    simp only [if_neg (not_lt.mpr h0)] at h
    by_cases hlen : (sp.Render.length : ℤ) ≤ ri0
    · rw [if_pos hlen] at h
      cases hscan : RuneSpanPosScan rest (ri0 - sp.Render.length) with
      | none => rw [hscan] at h; simp at h
      | some p =>
        rw [hscan] at h
        simp only [Option.map_some'] at h
        obtain ⟨hsi, hri⟩ : p.1 + 1 = si ∧ p.2 = ri := by
          constructor <;> [exact congrArg Prod.fst (Option.some.inj h);
            exact congrArg Prod.snd (Option.some.inj h)]
        subst hsi hri
        have hrec := ih (ri0 - sp.Render.length) p.1
          (acc + sp.Render.length) (by omega) (by rw [hscan])
        rw [SpanPosToRuneIdxScan]
        rw [if_pos (by exact_mod_cast Nat.succ_pos p.1)]
        rw [show ((p.1 + 1 : ℕ) : ℤ) - 1 = (p.1 : ℤ) by push_cast; ring]
        rw [hrec]
        congr 1
        ring
    · rw [if_neg hlen] at h
      obtain ⟨hsi, hri⟩ : 0 = si ∧ ri0 = ri := by
        constructor <;> [exact congrArg Prod.fst (Option.some.inj h);
          exact congrArg Prod.snd (Option.some.inj h)]
      subst hsi hri
      rw [SpanPosToRuneIdxScan]
      rw [if_neg (by simp), if_pos (not_le.mp hlen)]

/-- C8: whenever RuneSpanPos idx succeeds with position (si, ri), the
inverse map SpanPosToRuneIdx si ri returns exactly idx with ok = true:
the two index conversions are mutually inverse on all in-range indices
(empty spans included: a span with no render records is skipped by both
scans). -/
theorem c8_runeSpanPos_spanPosToRuneIdx_inverse (tx : TextRender)
    (idx : ℤ) (si : ℕ) (ri : ℤ)
    (h : tx.RuneSpanPos idx = (si, ri, true)) :
    tx.SpanPosToRuneIdx (si : ℤ) ri = (idx, true) := by
  unfold TextRender.RuneSpanPos at h
  by_cases hc : idx < 0 ∨ tx.Spans.length = 0
  · rw [if_pos hc] at h
    exact absurd (congrArg (fun t => t.2.2) h) (by simp)
  · rw [if_neg hc] at h
    push_neg at hc
    cases hscan : RuneSpanPosScan tx.Spans idx with
    | none => rw [hscan] at h; simp at h
    | some p =>
      rw [hscan] at h
      obtain ⟨h1, h2⟩ : p.1 = si ∧ p.2 = ri := by
        refine ⟨congrArg (fun t => t.1) h, congrArg (fun t => t.2.1) h⟩
      subst h1 h2
      unfold TextRender.SpanPosToRuneIdx
      have := runeSpanPosScan_inverse tx.Spans idx p.1 p.2 0 hc.1
        (by rw [hscan])
      rw [this, zero_add]

/-- Witness for c8_runeSpanPos_spanPosToRuneIdx_inverse on a TextRender
with render lengths [2, 0, 3] (middle span empty) at absolute index 3,
which lands at span 2, rune 1. -/
theorem c8_runeSpanPos_spanPosToRuneIdx_inverse_witness :
    (TextRender.mk [{ Render := [{}, {}] }, { Render := [] },
        { Render := [{}, {}, {}] }]).RuneSpanPos 3 = (2, 1, true) ∧
      (TextRender.mk [{ Render := [{}, {}] }, { Render := [] },
        { Render := [{}, {}, {}] }]).SpanPosToRuneIdx ((2 : ℕ) : ℤ) 1 =
        (3, true) :=
  ⟨by decide,
    c8_runeSpanPos_spanPosToRuneIdx_inverse _ 3 2 1 (by decide)⟩

/-! ### C1: FindWrapPosLR on whitespace-free spans -/

theorem getD_mem_of_lt (txt : List Char) (i : ℕ) (h : i < txt.length) :
    txt.getD i default ∈ txt := by
  rw [List.getD_eq_getElem?_getD, List.getElem?_eq_getElem h]
  exact List.getElem_mem h

theorem wrapFitDown_le (f : ℕ → ℚ) (t : ℚ) (i : ℕ) :
    WrapFitDown f t i ≤ i := by
  induction i with
  | zero => rfl
  | succ j ih =>
    rw [WrapFitDown]
    by_cases h : f (j + 1) ≤ t
    · rw [if_pos h]
    · rw [if_neg h]; omega

theorem wrapFitUp_le (f : ℕ → ℚ) (t : ℚ) (hi : ℕ) :
    ∀ n i, hi - i ≤ n → i ≤ hi → WrapFitUp f t hi i ≤ hi := by
  intro n
  induction n with
  | zero =>
    intro i h1 h2
    unfold WrapFitUp
    rw [if_neg (by omega)]
    exact h2
  | succ m ih =>
    intro i h1 h2
    unfold WrapFitUp
    by_cases hlt : i < hi
    · rw [if_pos hlt]
      by_cases hf : t < f (i + 1)
      · rw [if_pos hf]; exact le_of_lt hlt
      · rw [if_neg hf]; exact ih (i + 1) (by omega) (by omega)
    · rw [if_neg hlt]; exact h2

theorem wrapStartIdx_le (sr : SpanRender) (trg cur : ℚ)
    (h : sr.Text.length ≠ 0) :
    sr.WrapStartIdx trg cur ≤ sr.Text.length - 1 := by
  unfold SpanRender.WrapStartIdx
  by_cases hc : (sr.Text.length : ℤ) ≤
      GoTruncInt ((sr.Text.length : ℚ) * (trg / cur))
  · rw [if_pos hc]
  · rw [if_neg hc]; omega

theorem wrapFitIdx_lt (sr : SpanRender) (trg cur : ℚ)
    (h : sr.Text.length ≠ 0) :
    sr.WrapFitIdx trg cur < sr.Text.length := by
  have h1 := wrapStartIdx_le sr trg cur h
  unfold SpanRender.WrapFitIdx
  by_cases hc : trg < sr.WrapWidthAt (sr.WrapStartIdx trg cur)
  · rw [if_pos hc]
    have := wrapFitDown_le (sr.WrapWidthAt) trg (sr.WrapStartIdx trg cur)
    omega
  · rw [if_neg hc]
    have := wrapFitUp_le (sr.WrapWidthAt) trg (sr.Text.length - 1)
      (sr.Text.length - 1 - sr.WrapStartIdx trg cur)
      (sr.WrapStartIdx trg cur) (by omega) h1
    omega

theorem backWhileNoSpace_eq_zero (txt : List Char)
    (hns : ∀ c ∈ txt, GoIsSpace c = false) :
    ∀ i, i ≤ txt.length → BackWhileNoSpace txt i = 0 := by
  intro i
  induction i with
  | zero => intro _; rfl
  | succ j ih =>
    intro h
    rw [BackWhileNoSpace]
    have hsp : GoIsSpace (txt.getD j default) = false :=
      hns _ (getD_mem_of_lt txt j (by omega))
    rw [hsp, if_neg Bool.false_ne_true]
    exact ih (by omega)

theorem upWhileNoSpace_all (txt : List Char)
    (hns : ∀ c ∈ txt, GoIsSpace c = false) :
    ∀ n i, txt.length - i ≤ n → i ≤ txt.length →
      UpWhileNoSpace txt txt.length i = txt.length := by
  intro n
  induction n with
  | zero =>
    intro i h1 h2
    unfold UpWhileNoSpace
    rw [if_neg (by omega)]
    omega
  | succ m ih =>
    intro i h1 h2
    unfold UpWhileNoSpace
    by_cases hlt : i < txt.length
    · rw [if_pos hlt]
      have hsp : GoIsSpace (txt.getD i default) = false :=
        hns _ (getD_mem_of_lt txt i hlt)
      rw [hsp, if_neg Bool.false_ne_true]
      exact ih (i + 1) (by omega) (by omega)
    · rw [if_neg hlt]; omega

theorem skipSpaceUp_beyond (txt : List Char) (sz i : ℕ) (h : ¬ i < sz) :
    SkipSpaceUp txt sz i = i := by
  unfold SkipSpaceUp
  rw [if_neg h]

/-- C1 counterexample: on the whitespace-free span "abc" (non-empty,
renders positioned), FindWrapPosLR with target 1 and current size 2
returns 4 = len(Text)+1, not the sentinel -1 the claim states. -/
theorem c1_findWrapPos_unbreakable_counterexample :
    (∀ c ∈ WrapCexSpan.Text, GoIsSpace c = false) ∧
      WrapCexSpan.Text ≠ [] ∧
      WrapCexSpan.FindWrapPosLR 1 2 = 4 ∧
      WrapCexSpan.FindWrapPosLR 1 2 ≠ -1 := by
  refine ⟨by decide, by decide, by with_unfolding_all rfl, ?_⟩
  have h4 : WrapCexSpan.FindWrapPosLR 1 2 = 4 := by with_unfolding_all rfl
  rw [h4]
  decide

/-- C1 (amended): for every non-empty span whose text contains no
whitespace (with Render matching Text and positive target and current
sizes, where the model coincides with panic-free Go), FindWrapPosLR
returns len(Text) + 1 -- an out-of-range index, not -1.  The layout
caller treats any result outside (0, len-1) as unbreakable, so the
line is still rendered as-is without wrapping; -1 itself is returned
only when the first whitespace at or above the fit index is the final
rune. -/
theorem c1_findWrapPos_unbreakable_amended (sr : SpanRender)
    (trgSize curSize : ℚ) (hne : sr.Text ≠ [])
    (hns : ∀ c ∈ sr.Text, GoIsSpace c = false)
    (hlen : sr.Render.length = sr.Text.length)
    (htrg : 0 < trgSize) (hcur : 0 < curSize) :
    sr.FindWrapPosLR trgSize curSize = (sr.Text.length : ℤ) + 1 := by
  have hsz : sr.Text.length ≠ 0 := by
    intro h0
    exact hne (List.length_eq_zero.mp h0)
  have hi2 : sr.WrapFitIdx trgSize curSize < sr.Text.length :=
    wrapFitIdx_lt sr trgSize curSize hsz
  simp only [SpanRender.FindWrapPosLR]
  rw [if_neg hsz]
  have hsp : GoIsSpace
      (sr.Text.getD (sr.WrapFitIdx trgSize curSize) default) = false :=
    hns _ (getD_mem_of_lt _ _ hi2)
  rw [hsp, if_neg Bool.false_ne_true]
  rw [backWhileNoSpace_eq_zero sr.Text hns _ (le_of_lt hi2)]
  rw [if_neg (lt_irrefl 0)]
  rw [upWhileNoSpace_all sr.Text hns sr.Text.length 0 (by omega) (by omega)]
  rw [if_neg (by omega : ¬ sr.Text.length = sr.Text.length - 1)]
  rw [skipSpaceUp_beyond sr.Text sr.Text.length (sr.Text.length + 1)
    (by omega)]
  push_cast
  ring

/-- Witness for c1_findWrapPos_unbreakable_amended on the concrete
whitespace-free span "abc". -/
theorem c1_findWrapPos_unbreakable_amended_witness :
    WrapCexSpan.Text ≠ [] ∧ (0 : ℚ) < 1 ∧ (0 : ℚ) < 2 ∧
      WrapCexSpan.FindWrapPosLR 1 2 = (WrapCexSpan.Text.length : ℤ) + 1 :=
  ⟨by decide, by norm_num, by norm_num,
    c1_findWrapPos_unbreakable_amended WrapCexSpan 1 2 (by decide)
      (by decide) (by decide) (by norm_num) (by norm_num)⟩

/-! ### C4: SetRunePosLR covers every record, positions non-decreasing -/

theorem isValid_elim (sr : SpanRender) (h : sr.IsValid = true) :
    sr.Text ≠ [] ∧ sr.Text.length = sr.Render.length := by
  unfold SpanRender.IsValid at h
  by_cases h1 : sr.Text.isEmpty
  · rw [if_pos h1] at h; exact absurd h (by simp)
  · rw [if_neg h1] at h
    by_cases h2 : sr.Text.length ≠ sr.Render.length
    · rw [if_pos h2] at h; exact absurd h (by simp)
    · refine ⟨?_, by omega⟩
      intro h0
      exact h1 (by rw [h0]; rfl)

theorem runePosLoopLR_length (lspc wspc chsz : ℚ) (ts : ℤ) :
    ∀ (txt : List Char) (rrs : List RuneRender) (fpos : ℚ)
      (prevR : Option Char) (cf : Face), rrs.length = txt.length →
      (RunePosLoopLR lspc wspc chsz ts txt rrs fpos prevR cf).1.length =
        txt.length := by
  intro txt
  induction txt with
  | nil => intro rrs fpos prevR cf _; rfl
  | cons r rs ih =>
    intro rrs fpos prevR cf h
    cases rrs with
    | nil => simp at h
    | cons rr rrs2 =>
      simp only [RunePosLoopLR, List.length_cons]
      rw [ih rrs2 _ _ _ (by simpa using h)]

theorem runePosLoopLR_head_x (lspc wspc chsz : ℚ) (ts : ℤ) (r : Char)
    (rs : List Char) (rr : RuneRender) (rrs : List RuneRender)
    (fpos : ℚ) (prevR : Option Char) (cf : Face) :
    (((RunePosLoopLR lspc wspc chsz ts (r :: rs) (rr :: rrs) fpos prevR
        cf).1).getD 0 default).RelPos.X =
      PenAfterKern fpos (rr.CurFace cf) prevR r := by
  simp [RunePosLoopLR]

theorem kernBounded_tail (rr : RuneRender) (rrs : List RuneRender)
    (cf : Face) (h : KernBounded (rr :: rrs) cf) :
    KernBounded rrs (rr.CurFace cf) := by
  intro f hf g hg p q
  exact h f (List.mem_cons_of_mem _ hf) g (List.mem_cons_of_mem _ hg) p q

theorem penAdvance_ge (lspc wspc chsz : ℚ) (ts : ℤ) (r : Char)
    (last : Bool) (cf : Face) (fpos1 : ℚ) (hl : 0 ≤ lspc) (hw : 0 ≤ wspc)
    (hr : r ≠ '\t') :
    fpos1 + A32Of cf r ≤ PenAdvance lspc wspc chsz ts r last cf fpos1 := by
  unfold PenAdvance
  rw [if_neg hr]
  cases last
  · by_cases hsp : GoIsSpace r <;> simp [hsp] <;> linarith
  · simp

/-- Core invariant of the rune positioner: positions along X never
decrease between a non-tab rune and its successor, given nonnegative
letter and word spacing and the kerning bound over the faces in use. -/
theorem runePosLoopLR_mono (lspc wspc chsz : ℚ) (ts : ℤ)
    (hl : 0 ≤ lspc) (hw : 0 ≤ wspc) :
    ∀ (txt : List Char) (rrs : List RuneRender) (fpos : ℚ)
      (prevR : Option Char) (cf : Face),
      rrs.length = txt.length → KernBounded rrs cf →
      ∀ i, i + 1 < txt.length → txt.getD i default ≠ '\t' →
        (((RunePosLoopLR lspc wspc chsz ts txt rrs fpos prevR cf).1).getD i
            default).RelPos.X ≤
        (((RunePosLoopLR lspc wspc chsz ts txt rrs fpos prevR cf).1).getD
            (i + 1) default).RelPos.X := by
  intro txt
  induction txt with
  | nil => intro rrs fpos prevR cf _ _ i hi; simp at hi
  | cons r rs ih =>
    intro rrs fpos prevR cf hlen hk i hi hti
    cases rrs with
    | nil => simp at hlen
    | cons rr rrs2 =>
      cases i with
      | zero =>
        cases rs with
        | nil => simp at hi
        | cons r2 rs2 =>
          cases rrs2 with
          | nil => simp at hlen
          | cons rr2 rrs3 =>
            have hti0 : r ≠ '\t' := by simpa using hti
            have hmem1 : rr.CurFace cf ∈
                UsedFaces (rr :: rr2 :: rrs3) cf :=
              List.mem_cons_self _ _
            have hmem2 : rr2.CurFace (rr.CurFace cf) ∈
                UsedFaces (rr :: rr2 :: rrs3) cf :=
              List.mem_cons_of_mem _ (List.mem_cons_self _ _)
            have hkern := hk _ hmem1 _ hmem2 r r2
            have hadv := penAdvance_ge lspc wspc chsz ts r
              (List.isEmpty (r2 :: rs2)) (rr.CurFace cf)
              (PenAfterKern fpos (rr.CurFace cf) prevR r) hl hw hti0
            simp only [RunePosLoopLR, List.getD_cons_zero,
              List.getD_cons_succ]
            simp only [PenAfterKern] at hadv ⊢
            linarith
      | succ j =>
        simp only [RunePosLoopLR, List.getD_cons_succ]
        exact ih rrs2 _ (some r) (rr.CurFace cf) (by simpa using hlen)
          (kernBounded_tail rr rrs2 cf hk) j (by simpa using hi)
          (by simpa using hti)

/-- C4: for every valid span, nonnegative letter and word spacing, and
font faces whose kerning never regresses past the previous glyph's
effective advance, SetRunePosLR assigns one position/size record per
rune (output Render has exactly Text-length records) and positions are
monotonically non-decreasing along X at every adjacent pair of non-tab
runes. -/
theorem c4_setRunePos_length_and_monotone (sr : SpanRender)
    (lspc wspc chsz : ℚ) (ts : ℤ) (hval : sr.IsValid = true)
    (hl : 0 ≤ lspc) (hw : 0 ≤ wspc)
    (hkern : KernBounded sr.Render sr.Face0) :
    ((sr.SetRunePosLR lspc wspc chsz ts).Render).length = sr.Text.length ∧
    ∀ i, i + 1 < sr.Text.length →
      sr.Text.getD i default ≠ '\t' →
      sr.Text.getD (i + 1) default ≠ '\t' →
      (((sr.SetRunePosLR lspc wspc chsz ts).Render).getD i
          default).RelPos.X ≤
      (((sr.SetRunePosLR lspc wspc chsz ts).Render).getD (i + 1)
          default).RelPos.X := by
  obtain ⟨-, hlen⟩ := isValid_elim sr hval
  unfold SpanRender.SetRunePosLR
  rw [hval]
  simp only [if_true]
  constructor
  · exact runePosLoopLR_length _ _ _ _ sr.Text sr.Render 0 none sr.Face0
      hlen.symm
  · intro i hi hti _
    exact runePosLoopLR_mono _ _ _ _ hl hw sr.Text sr.Render 0 none
      sr.Face0 hlen.symm hkern i hi hti

/-- Witness for c4_setRunePos_length_and_monotone on the concrete span
"ab" in UnitFace. -/
theorem c4_setRunePos_length_and_monotone_witness :
    MonoWitSpan.IsValid = true ∧
      ((MonoWitSpan.SetRunePosLR 0 0 1 4).Render).length =
        MonoWitSpan.Text.length ∧
      (((MonoWitSpan.SetRunePosLR 0 0 1 4).Render).getD 0
          default).RelPos.X ≤
        (((MonoWitSpan.SetRunePosLR 0 0 1 4).Render).getD 1
          default).RelPos.X := by
  have hkern : KernBounded MonoWitSpan.Render MonoWitSpan.Face0 := by
    intro f hf g hg p q
    have hf1 : f = UnitFace := by
      simp [MonoWitSpan, UsedFaces, RuneRender.CurFace,
        SpanRender.Face0] at hf
      exact hf
    have hg1 : g = UnitFace := by
      simp [MonoWitSpan, UsedFaces, RuneRender.CurFace,
        SpanRender.Face0] at hg
      exact hg
    subst hf1 hg1
    norm_num [A32Of, UnitFace]
  have h := c4_setRunePos_length_and_monotone MonoWitSpan 0 0 1 4
    (by decide) le_rfl le_rfl hkern
  exact ⟨by decide, h.1, h.2 0 (by decide) (by decide) (by decide)⟩

/-! ### C6: tab advances to the next tab stop -/

/-- C6: a tabSize of 0 defaults to 4 (SetRunePosLR behaves identically
for tabSize 0 and 4 on every span), and in the scenario "a\tb" with
tab size 4, reference character width w, no kerning around the tab,
and 'a' narrower than one column (0 < advance < w), rune 'b' is
positioned at exactly x = 4w. -/
theorem c6_tab_next_tabstop (f : Face) (c : GColor) (w : ℚ)
    (hw : 0 < w) (ha0 : 0 < f.Advance 'a') (haw : f.Advance 'a' < w)
    (hk1 : f.Kern 'a' '\t' = 0) (hk2 : f.Kern '\t' 'b' = 0) :
    (∀ (sr : SpanRender) (l ws ch : ℚ),
        sr.SetRunePosLR l ws ch 0 = sr.SetRunePosLR l ws ch 4) ∧
    (((TabSpan f c).SetRunePosLR 0 0 w 4).Render.getD 2 default).RelPos.X =
      4 * w := by
  constructor
  · intro sr l ws ch
    unfold SpanRender.SetRunePosLR
    norm_num
  · have hvalid : (TabSpan f c).IsValid = true := by
      simp [TabSpan, SpanRender.IsValid]
    have hface0 : (TabSpan f c).Face0 = f := by
      simp [TabSpan, SpanRender.Face0]
    have hne : ¬ f.Advance 'a' = 0 := ne_of_gt ha0
    have hceil : ⌈f.Advance 'a' / w⌉ = (1 : ℤ) := by
      rw [Int.ceil_eq_iff]
      constructor
      · push_cast
        have := div_pos ha0 hw
        linarith
      · push_cast
        rw [div_le_one hw]
        linarith
    have htd : Int.tdiv (1 : ℤ) 4 = 0 := by decide
    have hca : ¬ ('a' : Char) = '\t' := by decide
    have hcb : ¬ ('b' : Char) = '\t' := by decide
    have hlt4 : f.Advance 'a' < w * (((0 + 1) * 4 : ℤ) : ℚ) := by
      push_cast
      linarith
    unfold SpanRender.SetRunePosLR
    rw [hvalid]
    simp only [if_true, hface0, TabSpan]
    norm_num
    simp only [RunePosLoopLR, RuneRender.CurFace, PenAfterKern, PenAdvance,
      TabStopAdvance, A32Of, List.isEmpty_cons, List.getD_cons_succ,
      List.getD_cons_zero, hk1, hk2, hne, hca, hcb, if_false, if_true,
      ite_self, add_zero, zero_add, eq_self_iff_true]
    rw [hceil, htd]
    rw [if_pos hlt4]
    simp [mul_comm]

/-- Witness for c6_tab_next_tabstop in UnitFace (advance 1) with
reference character width 2. -/
theorem c6_tab_next_tabstop_witness :
    (0 : ℚ) < 2 ∧ 0 < UnitFace.Advance 'a' ∧ UnitFace.Advance 'a' < 2 ∧
      (((TabSpan UnitFace 0).SetRunePosLR 0 0 2 4).Render.getD 2
          default).RelPos.X = 4 * 2 :=
  have h := c6_tab_next_tabstop UnitFace 0 2 (by norm_num)
    (by norm_num [UnitFace]) (by norm_num [UnitFace])
    (by norm_num [UnitFace]) (by norm_num [UnitFace])
  ⟨by norm_num, by norm_num [UnitFace], by norm_num [UnitFace], h.2⟩

/-- Witness for c9_updateSplits_degenerate: an all-collapsed (zero-sum)
SplitView gets the even split. -/
theorem c9_updateSplits_degenerate_witness :
    1 ≤ (SplitView.mk 2 [0, 0] []).Kids ∧
      ((SplitView.mk 2 [0, 0] []).UpdateSplits).Splits =
        List.replicate 2 ((1 : ℚ) / 2) :=
  ⟨by decide,
    (c9_updateSplits_degenerate (SplitView.mk 2 [0, 0] []) (by decide)
      (by decide)).1 (by with_unfolding_all rfl)⟩

end Gi
